import Mathlib

/-!
Verification of the metadata-resolution and deduplication pipeline of
`music_organizer.py` (class `AdvancedMusicOrganizer`).

Strings are modelled through their underlying `List Char`.  Python's
whitespace class (`str.isspace`, the regex class of whitespace characters),
`str.lower`, `str.isdigit` and `str.startswith` are modelled over the
character ranges the source manipulates (ASCII plus the standard Unicode
whitespace code points); the external collaborators (mutagen tag reading,
hashlib digests, the filesystem walk) are modelled as inputs: each file
record carries the raw tag tuple the tag reader would return, its byte
content and a readability flag, and the content hash function is an
arbitrary parameter, exactly as the spec treats `hashlib.md5` as an opaque
collaborator.
-/

namespace MusicOrganizer

/-- Characters removed by `clean_name`: the class in
`re.sub(r'[<>:"/\\|?*]', '', name)`. -/
def isIllegalChar (c : Char) : Bool :=
  c == '<' || c == '>' || c == ':' || c == '"' || c == '/' || c == '\\' ||
  c == '|' || c == '?' || c == '*'

/-- Python whitespace: the characters matched by `str.isspace` and by the
whitespace class of `re` on `str` (ASCII whitespace plus the Unicode
white-space code points). -/
def isPySpace (c : Char) : Bool :=
  c == ' ' || c == '\t' || c == '\n' || c == '\x0b' || c == '\x0c' || c == '\r' ||
  c == '\x1c' || c == '\x1d' || c == '\x1e' || c == '\x1f' || c == '\x85' || c == '\xa0' ||
  c == ' ' || c == ' ' || c == ' ' || c == ' ' || c == ' ' ||
  c == ' ' || c == ' ' || c == ' ' || c == ' ' || c == ' ' ||
  c == ' ' || c == ' ' || c == ' ' || c == ' ' || c == ' ' ||
  c == ' ' || c == '　'

/-- The dot character, the argument of `name.strip('.')`. -/
def isDotChar (c : Char) : Bool :=
  c == '.'

/-- `re.sub(r'[<>:"/\\|?*]', '', name)`. -/
def removeIllegal (l : List Char) : List Char :=
  l.filter (fun c => !isIllegalChar c)

/-- `re.sub(r'\s+', ' ', name)`: every maximal run of whitespace becomes a
single space. -/
def collapseWs : List Char → List Char
  | [] => []
  | [c] => if isPySpace c then [' '] else [c]
  | a :: b :: t =>
    if isPySpace a then
      if isPySpace b then collapseWs (b :: t)
      else ' ' :: collapseWs (b :: t)
    else a :: collapseWs (b :: t)

/-- Python `str.lstrip` restricted to a character predicate. -/
def lstripBy (p : Char → Bool) (l : List Char) : List Char :=
  l.dropWhile p

/-- Python `str.rstrip` restricted to a character predicate. -/
def rstripBy (p : Char → Bool) (l : List Char) : List Char :=
  (l.reverse.dropWhile p).reverse

/-- Python `str.strip` restricted to a character predicate. -/
def stripBy (p : Char → Bool) (l : List Char) : List Char :=
  rstripBy p (lstripBy p l)

/-- The fallback literal of `clean_name`. -/
def unknownL : List Char :=
  "Unknown".data

/-- The transformation pipeline inside `clean_name`: remove illegal
characters, collapse whitespace runs, `.strip()`, `.strip('.')`. -/
def cleanCoreL (l : List Char) : List Char :=
  stripBy isDotChar (stripBy isPySpace (collapseWs (removeIllegal l)))

/-- `clean_name` on the character list: empty input and empty result fall
back to `"Unknown"`. -/
def cleanNameL (l : List Char) : List Char :=
  if l = [] then unknownL
  else if cleanCoreL l = [] then unknownL
  else cleanCoreL l

/-- `AdvancedMusicOrganizer.clean_name` on strings. -/
def clean_name (s : String) : String :=
  ⟨cleanNameL s.data⟩

/-- `clean_name` on an optional string: `if not name: return "Unknown"`
also catches `None`. -/
def clean_nameOpt : Option String → String
  | none => "Unknown"
  | some s => clean_name s

/-- Python `str.strip()` (no arguments: whitespace). -/
def pyStripL (l : List Char) : List Char :=
  stripBy isPySpace l

/-- Python `str.lower()` (ASCII model). -/
def pyLower (s : String) : String :=
  ⟨s.data.map Char.toLower⟩

/-- Python `str.isdigit()`: non-empty and all digits (ASCII model). -/
def pyIsDigitL (l : List Char) : Bool :=
  !l.isEmpty && l.all Char.isDigit

/-- Python `str.startswith(pre)`. -/
def pyStartsWith (s pre : String) : Bool :=
  pre.data.isPrefixOf s.data

/-- Substring test, as Python `needle in hay`. -/
def isSubL (needle : List Char) : List Char → Bool
  | [] => needle.isEmpty
  | c :: t => needle.isPrefixOf (c :: t) || isSubL needle t

/-- `needle in hay` on strings. -/
def isSubstr (needle hay : String) : Bool :=
  isSubL needle.data hay.data

/-- Index of the last `'.'` in a name (`name.rfind('.')`). -/
def rfindDot (l : List Char) : Option Nat :=
  (l.reverse.findIdx? isDotChar).map (fun k => l.length - 1 - k)

/-- Python `PurePath.stem`: the final component minus its suffix; a suffix
exists only when the last dot is at an index `i` with `0 < i < len - 1`. -/
def pathStem (name : String) : String :=
  match rfindDot name.data with
  | some i => if 0 < i ∧ i < name.data.length - 1 then ⟨name.data.take i⟩ else name
  | none => name

/-- Python `PurePath.suffix`, the extension including the dot. -/
def pathSuffix (name : String) : String :=
  match rfindDot name.data with
  | some i => if 0 < i ∧ i < name.data.length - 1 then ⟨name.data.drop i⟩ else ""
  | none => ""

/-- The final path component (`Path.name`); path components are modelled
as the list `Path.parts`, whose last element is the file name. -/
def fileName (parts : List String) : String :=
  parts.getLastD ""

/-- `Path.stem` of the modelled file. -/
def fileStem (parts : List String) : String :=
  pathStem (fileName parts)

/-- `str(file_path)`: the joined path string. -/
def pathString (parts : List String) : String :=
  String.intercalate "/" parts

/-- `re.sub(r'^\d+\.?\s*[-.]?\s*', '', stem)`: strip a leading
track-number of digits, an optional dot, optional whitespace, an optional
single `-` or `.` separator, and optional whitespace.  When the stem does
not start with a digit the regex does not match and the stem is kept. -/
def dropTrackNumL (l : List Char) : List Char :=
  match l with
  | [] => []
  | c :: _ =>
    if c.isDigit then
      let l1 := l.dropWhile Char.isDigit
      let l2 := match l1 with
                | '.' :: t => t
                | _ => l1
      let l3 := l2.dropWhile isPySpace
      let l4 := match l3 with
                | c2 :: t => if c2 == '-' || c2 == '.' then t else l3
                | [] => l3
      l4.dropWhile isPySpace
    else l

/-- Track-number stripping on strings. -/
def dropTrackNum (s : String) : String :=
  ⟨dropTrackNumL s.data⟩

/-- The stop-word set of `parse_filename_only`. -/
def commonWords : List String :=
  ["the", "a", "an", "and", "or", "but", "in", "on", "at",
   "to", "for", "of", "with", "by", "they", "these", "this",
   "that", "i", "you", "we", "my", "your", "his", "her"]

/-- Python `s.split(sep, 1)` when `sep` occurs in `s`: the part before the
first occurrence and the part after it; `none` when `sep` is absent. -/
def splitOnceL (sep : List Char) : List Char → Option (List Char × List Char)
  | [] => none
  | c :: t =>
    if sep.isPrefixOf (c :: t) then some ([], (c :: t).drop sep.length)
    else
      match splitOnceL sep t with
      | some (a, b) => some (c :: a, b)
      | none => none

/-- `parse_filename_only`: strip the track number, split once on
`" - "`, and accept the split as (artist, track) only under the length,
stop-word and non-numeric guards; otherwise return the manual-sort
sentinel. -/
def parse_filename_only (stem : String) :
    String × String × String × Option String × Option String :=
  let cleanFilename := dropTrackNumL stem.data
  match splitOnceL " - ".data cleanFilename with
  | some (l, r) =>
    let potentialArtist := pyStripL l
    let potentialTrack := pyStripL r
    if 2 ≤ potentialArtist.length ∧ 2 ≤ potentialTrack.length ∧
        ¬ commonWords.contains (pyLower ⟨potentialArtist⟩) ∧
        ¬ pyIsDigitL potentialArtist then
      (clean_name ⟨potentialArtist⟩, "Singles", clean_name ⟨potentialTrack⟩, none, none)
    else
      ("Manual Sort Needed", "", clean_name stem, none, none)
  | none => ("Manual Sort Needed", "", clean_name stem, none, none)

/-- The built-in junk-folder blocklist added by `parse_from_path` via
`skip_folders.update({...})`. -/
def builtinSkipFolders : List String :=
  ["mp3s", "new mp3s", "Amazon MP3", "Google Music Downloads",
   "Converted Music", "misc", "Various", "Unknown Artist"]

/-- The skip set used by the path tier: configured entries plus the
built-in blocklist. -/
def pathSkipSet (cfgSkip : List String) : List String :=
  cfgSkip ++ builtinSkipFolders

/-- The filter of `dirs_after_music`: keep `d` when it is not a member of
the skip set and does not start with `"Part"`. -/
def keepDirComponent (cfgSkip : List String) (d : String) : Bool :=
  !(pathSkipSet cfgSkip).contains d && !pyStartsWith d "Part"

/-- `path_parts[music_index + 1:-1]` filtered: the surviving candidate
components strictly between the anchor and the file. -/
def pathTierDirs (cfgSkip : List String) (parts : List String) (musicIdx : Nat) :
    List String :=
  ((parts.drop (musicIdx + 1)).dropLast).filter (keepDirComponent cfgSkip)

/-- `next((i for i, part in enumerate(path_parts) if part == 'Music'), -1)`:
the first index whose component equals the anchor `"Music"`. -/
def musicAnchorIdx (parts : List String) : Option Nat :=
  parts.findIdx? (fun p => p == "Music")

/-- `parse_from_path`: the path tier, falling through to
`parse_filename_only` when the anchor is absent or no component survives. -/
def parse_from_path (cfgSkip : List String) (parts : List String) :
    String × String × String × Option String × Option String :=
  match musicAnchorIdx parts with
  | none => parse_filename_only (fileStem parts)
  | some i =>
    match pathTierDirs cfgSkip parts i with
    | [] => parse_filename_only (fileStem parts)
    | artist :: rest =>
      let album := match rest with
                   | [] => "Singles"
                   | b :: _ => b
      let track := dropTrackNum (fileStem parts)
      (clean_name artist, clean_name album, clean_name track, none, none)

/-- The raw tag tuple returned by `read_metadata` (the mutagen
collaborator): any field may be absent. -/
structure RawTags where
  artist : Option String
  album : Option String
  title : Option String
  genre : Option String
  year : Option String
  bitrate : Option Nat
deriving DecidableEq

/-- Python truthiness of an optional string (`None` and `""` are falsy). -/
def isTruthy : Option String → Bool
  | none => false
  | some s => s != ""

/-- The tag-tier guard `meta_artist and len(meta_artist.strip()) > 1`. -/
def tagArtistUsable (tags : RawTags) : Bool :=
  match tags.artist with
  | none => false
  | some a => a != "" && decide (1 < (pyStripL a.data).length)

/-- The pure resolution result of `parse_metadata`: the tag tier when the
raw artist is usable, otherwise `parse_from_path`.  (The near-duplicate
and quality bookkeeping that `parse_metadata` also performs is modelled
separately in the scan step, as is the album-art side effect.) -/
def resolveTrack (cfgSkip : List String) (tags : RawTags) (parts : List String) :
    String × String × String × Option String × Option String :=
  if tagArtistUsable tags then
    (clean_name (tags.artist.getD ""),
     (match tags.album with
      | some al => if al != "" then clean_name al else "Singles"
      | none => "Singles"),
     (match tags.title with
      | some t => if t != "" then clean_name t else clean_name (fileStem parts)
      | none => clean_name (fileStem parts)),
     tags.genre, tags.year)
  else parse_from_path cfgSkip parts

/-- First-occurrence association lookup (`dict` membership / access). -/
def lookupA {α : Type} (k : String) : List (String × α) → Option α
  | [] => none
  | (k2, v) :: rest => if k2 = k then some v else lookupA k rest

/-- `defaultdict(list)` append: `groups[key].append(x)`; a fresh key is
inserted at the end, preserving insertion order. -/
def addToGroup {α : Type} (k : String) (x : α) :
    List (String × List α) → List (String × List α)
  | [] => [(k, [x])]
  | (k2, xs) :: rest =>
    if k2 = k then (k2, xs ++ [x]) :: rest
    else (k2, xs) :: addToGroup k x rest

/-- The near-duplicate group key `f"{artist.lower()}_{title.lower()}"`,
built from the raw tag artist and title. -/
def nearDupKey (a t : String) : String :=
  pyLower a ++ "_" ++ pyLower t

/-- `check_near_duplicates`: when the feature is enabled and the raw tag
artist and title are both truthy, append the file path to the group of
their lowered key. -/
def check_near_duplicates (findND : Bool) (tags : RawTags) (path : String)
    (groups : List (String × List String)) : List (String × List String) :=
  if !findND then groups
  else
    match tags.artist, tags.title with
    | some a, some t =>
      if a != "" && t != "" then addToGroup (nearDupKey a t) path groups else groups
    | _, _ => groups

/-- The near-duplicate surplus accumulated by `generate_reports`:
`len(files) - 1` for every group with more than one member. -/
def nearDupFoundCount (groups : List (String × List String)) : Nat :=
  (groups.map (fun g => if 1 < g.2.length then g.2.length - 1 else 0)).sum

/-- The increment `generate_reports` applies to
`stats['near_duplicates_found']` (zero when the feature is disabled). -/
def reportNearDupCount (findND : Bool) (groups : List (String × List String)) : Nat :=
  if findND then nearDupFoundCount groups else 0

/-- The recognized audio extensions of `get_all_music_files`. -/
def musicExtensions : List String :=
  [".mp3", ".m4a", ".flac", ".wav", ".aac", ".ogg", ".wma"]

/-- A candidate file of the batch run: its path components, whether the
walk reports it as a regular file, its byte content, whether hashing can
read it, and the raw tags the tag reader returns for it. -/
structure FileRec where
  parts : List String
  isFile : Bool
  content : List Nat
  readable : Bool
  tags : RawTags
deriving DecidableEq

/-- `str(file_path)` of a candidate. -/
def FileRec.path (f : FileRec) : String :=
  pathString f.parts

/-- `get_all_music_files` over an enumerated candidate list: drop a file
when any configured skip entry occurs as a substring of its path string,
keep regular files with a recognized (lowercased) extension. -/
def get_all_music_files (cfgSkip : List String) (candidates : List FileRec) :
    List FileRec :=
  candidates.filter (fun f =>
    !(cfgSkip.any (fun sk => isSubstr sk f.path)) &&
    (f.isFile && musicExtensions.contains (pyLower (pathSuffix (fileName f.parts)))))

/-- `get_file_hash`: `None` on a read failure, otherwise the digest of the
file's bytes under the content hash function `H` (the `hashlib.md5`
collaborator). -/
def fileHash (H : List Nat → String) (f : FileRec) : Option String :=
  if f.readable then some (H f.content) else none

/-- One planned placement (`file_info` of `organized_files`), minus the
target directory object, which is determined by the key. -/
structure PlanEntry where
  originalPath : String
  artist : String
  album : String
  track : String
  genre : Option String
  year : Option String
  filename : String
deriving DecidableEq

/-- The placement-plan key: `"Manual Sort Needed/"` for the sentinel,
otherwise `f"{artist}/{album}"`. -/
def planKey (artist album : String) : String :=
  if artist = "Manual Sort Needed" then "Manual Sort Needed/" else artist ++ "/" ++ album

/-- Build the `file_info` record appended to `organized_files`. -/
def mkPlanEntry (f : FileRec)
    (r : String × String × String × Option String × Option String) : PlanEntry :=
  { originalPath := f.path, artist := r.1, album := r.2.1, track := r.2.2.1,
    genre := r.2.2.2.1, year := r.2.2.2.2, filename := fileName f.parts }

/-- The mutable run state accumulated by the scan loop of `organize`
(lines 479-518).  The quality statistics and the stats counters not
examined by any claim are omitted. -/
structure ScanState where
  totalFiles : Nat
  duplicates : List (String × String)
  duplicatesRemoved : Nat
  nearDups : List (String × List String)
  plan : List (String × List PlanEntry)
  manualSort : Nat
deriving DecidableEq

/-- The initial run state. -/
def initScan : ScanState :=
  { totalFiles := 0, duplicates := [], duplicatesRemoved := 0,
    nearDups := [], plan := [], manualSort := 0 }

/-- One iteration of the scan loop of `organize`: count the file; skip it
when it cannot be hashed; when its hash is already recorded count it as a
removed duplicate and do nothing else; otherwise record the hash
(first-seen wins), update the near-duplicate groups (done inside
`parse_metadata`), resolve the metadata and append the file to the
placement plan under its artist/album key. -/
def scanStep (H : List Nat → String) (findND : Bool) (cfgSkip : List String)
    (s : ScanState) (f : FileRec) : ScanState :=
  match fileHash H f with
  | none => { s with totalFiles := s.totalFiles + 1 }
  | some h =>
    if (lookupA h s.duplicates).isSome then
      { s with totalFiles := s.totalFiles + 1,
               duplicatesRemoved := s.duplicatesRemoved + 1 }
    else
      let r := resolveTrack cfgSkip f.tags f.parts
      { s with totalFiles := s.totalFiles + 1,
               duplicates := s.duplicates ++ [(h, f.path)],
               nearDups := check_near_duplicates findND f.tags f.path s.nearDups,
               plan := addToGroup (planKey r.1 r.2.1) (mkPlanEntry f r) s.plan,
               manualSort := if r.1 = "Manual Sort Needed" then s.manualSort + 1
                             else s.manualSort }

/-- The scan phase of `organize` over the enumerated files. -/
def scanFiles (H : List Nat → String) (findND : Bool) (cfgSkip : List String)
    (files : List FileRec) : ScanState :=
  files.foldl (scanStep H findND cfgSkip) initScan

/-- All original paths appearing in a placement-plan map. -/
def pathsOfPlan (pl : List (String × List PlanEntry)) : List String :=
  (pl.map (fun g => g.2.map PlanEntry.originalPath)).flatten

/-- All original paths appearing in the placement plan of a run state. -/
def planPaths (s : ScanState) : List String :=
  pathsOfPlan s.plan

/-- The files that survive exact-duplicate suppression: readable files
whose digest was not seen before them (`seen` lists the digests recorded
so far). -/
def survivorsAux (H : List Nat → String) (seen : List String) :
    List FileRec → List FileRec
  | [] => []
  | f :: fs =>
    match fileHash H f with
    | none => survivorsAux H seen fs
    | some h =>
      if seen.contains h then survivorsAux H seen fs
      else f :: survivorsAux H (seen ++ [h]) fs

/-- The dedup survivors of a batch. -/
def survivors (H : List Nat → String) (files : List FileRec) : List FileRec :=
  survivorsAux H [] files

/-- The first enumerated file whose content hashes to `h`. -/
def firstWithHash (H : List Nat → String) (h : String) (files : List FileRec) :
    Option FileRec :=
  files.find? (fun f => fileHash H f == some h)

/-- Whether the first (resp. last, via `reverse`) character satisfies `p`. -/
def headSatisfies (p : Char → Bool) : List Char → Bool
  | [] => false
  | c :: _ => p c

/-- Whether a string has leading or trailing whitespace. -/
def hasEdgeWs (l : List Char) : Bool :=
  headSatisfies isPySpace l || headSatisfies isPySpace l.reverse

/-- Normalized whitespace: every whitespace character is a plain space and
no two whitespace characters are adjacent (the shape `re.sub(r'\s+', ' ')`
produces). -/
def normWsB : List Char → Bool
  | [] => true
  | [c] => !isPySpace c || c == ' '
  | a :: b :: t => (!isPySpace a || (a == ' ' && !isPySpace b)) && normWsB (b :: t)

/-- The near-duplicate key the specification attributes to a file: the
lowered resolved artist and track joined by an underscore.  Used to compare
the specified grouping key with the implemented one. -/
def resolvedKey (cfgSkip : List String) (tags : RawTags) (parts : List String) :
    String :=
  pyLower (resolveTrack cfgSkip tags parts).1 ++ "_" ++
    pyLower (resolveTrack cfgSkip tags parts).2.2.1

/-- Modelled from the spec (claim C4 as stated): remove the illegal
characters, collapse whitespace runs, trim leading/trailing whitespace and
then trailing dots only, with the `"Unknown"` fallback for empty or `None`
input. -/
def sanitizeSpecTrailingDots : Option String → String
  | none => "Unknown"
  | some s =>
    if s.data = [] then "Unknown"
    else
      let r := rstripBy isDotChar (stripBy isPySpace (collapseWs (removeIllegal s.data)))
      if r = [] then "Unknown" else ⟨r⟩

/-- Modelled from the spec, amended: identical to the claim's description
except that leading dots are trimmed together with trailing dots. -/
def sanitizeSpecEdgeDots : Option String → String
  | none => "Unknown"
  | some s =>
    if s.data = [] then "Unknown"
    else
      let r := stripBy isDotChar (stripBy isPySpace (collapseWs (removeIllegal s.data)))
      if r = [] then "Unknown" else ⟨r⟩

/-! ## Basic lemmas -/

theorem cleanNameL_ne_nil (l : List Char) : cleanNameL l ≠ [] := by
  unfold cleanNameL
  split_ifs with h1 h2
  · decide
  · decide
  · exact h2

theorem clean_name_ne_empty (s : String) : clean_name s ≠ "" := by
  intro h
  exact cleanNameL_ne_nil s.data (congrArg String.data h)

/-! ## Claim theorems -/

/-- C1: when the raw tag artist is present and its trimmed form is longer
than one character, metadata resolution returns the tag-tier result:
sanitized artist, sanitized album (or `"Singles"` when the tag album is
absent or empty), sanitized title (or the sanitized extension-free
filename when the title is absent or empty), and the genre and year passed
through from the tags; no lower tier is consulted, so the result does not
depend on the configured skip folders. -/
theorem claim_C1_tag_tier (cfgSkip : List String) (tags : RawTags) (parts : List String)
    (a : String) (ha : tags.artist = some a) (ha1 : a ≠ "")
    (ha2 : 1 < (pyStripL a.data).length) :
    resolveTrack cfgSkip tags parts =
      (clean_name a,
       (match tags.album with
        | some al => if al != "" then clean_name al else "Singles"
        | none => "Singles"),
       (match tags.title with
        | some t => if t != "" then clean_name t else clean_name (fileStem parts)
        | none => clean_name (fileStem parts)),
       tags.genre, tags.year) ∧
    ∀ cfgSkip2 : List String,
      resolveTrack cfgSkip2 tags parts = resolveTrack cfgSkip tags parts := by
  have hu : tagArtistUsable tags = true := by
    unfold tagArtistUsable
    rw [ha]
    simp [bne_iff_ne, ha1, ha2]
  constructor
  · simp only [resolveTrack, if_pos hu, ha, Option.getD_some]
  · intro cfgSkip2
    simp only [resolveTrack, if_pos hu]

/-- C1 witness: the Queen example resolves to exactly
`("Queen", "A Night at the Opera", "Bohemian Rhapsody", none, none)`. -/
theorem claim_C1_tag_tier_witness :
    resolveTrack [] ⟨some "Queen", some "A Night at the Opera", some "Bohemian Rhapsody",
        none, none, none⟩ ["Music", "q.mp3"]
      = ("Queen", "A Night at the Opera", "Bohemian Rhapsody", none, none) := by
  have h := claim_C1_tag_tier [] ⟨some "Queen", some "A Night at the Opera",
      some "Bohemian Rhapsody", none, none, none⟩ ["Music", "q.mp3"] "Queen" rfl
      (by decide) (by decide)
  rw [h.1]
  decide

/-- C2: without a usable tag artist, when a path component equals the
anchor `"Music"` the resolver keeps the components strictly between the
anchor and the file that are outside the skip set and do not start with
`"Part"`; with at least one survivor it returns the sanitized first
survivor as artist, the sanitized second survivor (else `"Singles"`) as
album, and the sanitized track-number-stripped stem as track; with no
survivor, or no anchor, it falls through to the filename tier. -/
theorem claim_C2_path_tier (cfgSkip : List String) (tags : RawTags) (parts : List String)
    (hTag : tagArtistUsable tags = false) :
    (∀ i d rest, musicAnchorIdx parts = some i →
        pathTierDirs cfgSkip parts i = d :: rest →
        resolveTrack cfgSkip tags parts =
          (clean_name d,
           clean_name (match rest with
                       | [] => "Singles"
                       | b :: _ => b),
           clean_name (dropTrackNum (fileStem parts)), none, none)) ∧
    (∀ i, musicAnchorIdx parts = some i → pathTierDirs cfgSkip parts i = [] →
        resolveTrack cfgSkip tags parts = parse_filename_only (fileStem parts)) ∧
    (musicAnchorIdx parts = none →
        resolveTrack cfgSkip tags parts = parse_filename_only (fileStem parts)) := by
  have hr : resolveTrack cfgSkip tags parts = parse_from_path cfgSkip parts := by
    simp only [resolveTrack, hTag, Bool.false_eq_true, if_false]
  refine ⟨?_, ?_, ?_⟩
  · intro i d rest h1 h2
    rw [hr]
    simp only [parse_from_path, h1, h2]
  · intro i h1 h2
    rw [hr]
    simp only [parse_from_path, h1, h2]
  · intro h1
    rw [hr]
    simp only [parse_from_path, h1]

/-- C2 witness: `Music/Pink Floyd/The Wall/01 - Another Brick.mp3` with no
tags and an empty configured skip list yields
`("Pink Floyd", "The Wall", "Another Brick")`. -/
theorem claim_C2_path_tier_witness :
    resolveTrack [] ⟨none, none, none, none, none, none⟩
        ["Music", "Pink Floyd", "The Wall", "01 - Another Brick.mp3"]
      = ("Pink Floyd", "The Wall", "Another Brick", none, none) := by
  have h := (claim_C2_path_tier [] ⟨none, none, none, none, none, none⟩
      ["Music", "Pink Floyd", "The Wall", "01 - Another Brick.mp3"] (by decide)).1
      0 "Pink Floyd" ["The Wall"] (by decide) (by decide)
  rw [h]
  decide

/-- C3: in the filename tier, a split once on `" - "` is accepted as
(artist, track) exactly when both trimmed sides have length at least two,
the lowercased left side is not a stop word and the left side is not
purely numeric; on acceptance the result is the sanitized left side,
`"Singles"`, and the sanitized right side, otherwise the manual-sort
sentinel with the sanitized stem. -/
theorem claim_C3_filename_tier (stem : String) (l r : List Char)
    (hsplit : splitOnceL " - ".data (dropTrackNumL stem.data) = some (l, r)) :
    parse_filename_only stem =
      if 2 ≤ (pyStripL l).length ∧ 2 ≤ (pyStripL r).length ∧
          pyLower ⟨pyStripL l⟩ ∉ commonWords ∧
          ¬ (pyStripL l ≠ [] ∧ ∀ c ∈ pyStripL l, c.isDigit = true) then
        (clean_name ⟨pyStripL l⟩, "Singles", clean_name ⟨pyStripL r⟩, none, none)
      else ("Manual Sort Needed", "", clean_name stem, none, none) := by
  simp only [parse_filename_only, hsplit]
  refine if_congr ?_ rfl rfl
  constructor
  · rintro ⟨h1, h2, h3, h4⟩
    refine ⟨h1, h2, ?_, ?_⟩
    · intro hmem
      exact h3 (List.elem_iff.mpr hmem)
    · intro ⟨hne, hall⟩
      apply h4
      have hne2 : (pyStripL l).isEmpty = false := by
        cases hq : pyStripL l with
        | nil => exact absurd hq hne
        | cons c t => rfl
      simp only [pyIsDigitL, hne2, Bool.not_false, Bool.true_and, List.all_eq_true]
      exact hall
  · rintro ⟨h1, h2, h3, h4⟩
    refine ⟨h1, h2, ?_, ?_⟩
    · intro hmem
      exact h3 (List.elem_iff.mp hmem)
    · intro hdig
      apply h4
      unfold pyIsDigitL at hdig
      rw [Bool.and_eq_true] at hdig
      refine ⟨?_, List.all_eq_true.mp hdig.2⟩
      intro hnil
      have := hdig.1
      rw [hnil] at this
      simp at this

/-- C3 witness: `"Daft Punk - One More Time.mp3"` is accepted as
`("Daft Punk", "Singles", "One More Time")` while `"The - Something.mp3"`
is rejected (stop word) and falls to the sentinel. -/
theorem claim_C3_filename_tier_witness :
    parse_filename_only (pathStem "Daft Punk - One More Time.mp3")
        = ("Daft Punk", "Singles", "One More Time", none, none) ∧
    parse_filename_only (pathStem "The - Something.mp3")
        = ("Manual Sort Needed", "", "The - Something", none, none) := by
  constructor
  · rw [claim_C3_filename_tier (pathStem "Daft Punk - One More Time.mp3")
        "Daft Punk".data "One More Time".data (by decide)]
    decide
  · rw [claim_C3_filename_tier (pathStem "The - Something.mp3")
        "The".data "Something".data (by decide)]
    decide

/-- C4 counterexample: the claim says only trailing dots are trimmed, but
`name.strip('.')` strips leading dots as well: on `".a"` the code returns
`"a"` while the claimed description returns `".a"`. -/
theorem claim_C4_counterexample :
    clean_nameOpt (some ".a") ≠ sanitizeSpecTrailingDots (some ".a") ∧
    clean_nameOpt (some ".a") = "a" ∧ sanitizeSpecTrailingDots (some ".a") = ".a" := by
  refine ⟨by decide, by decide, by decide⟩

/-- C4 amended: for every input (including `None` and the empty string)
the sanitizer removes the filesystem-illegal characters, collapses
whitespace runs to one space, trims leading/trailing whitespace and
leading and trailing dots, and falls back to `"Unknown"` when the result
is empty; in particular the four examples of the claim hold. -/
theorem claim_C4_sanitizer (o : Option String) :
    clean_nameOpt o = sanitizeSpecEdgeDots o ∧
    clean_name "" = "Unknown" ∧ clean_name "A/B:C" = "ABC" ∧
    clean_name "a   b" = "a b" ∧ clean_name "Name." = "Name" := by
  refine ⟨?_, by decide, by decide, by decide, by decide⟩
  cases o with
  | none => rfl
  | some s =>
    simp only [clean_nameOpt, sanitizeSpecEdgeDots, clean_name, cleanNameL, cleanCoreL]
    split_ifs <;> rfl

/-- C6 helper: the filename tier always returns a non-empty artist and
track, and an empty album only together with the sentinel artist. -/
theorem pfo_invariant (stem : String) :
    (parse_filename_only stem).1 ≠ "" ∧ (parse_filename_only stem).2.2.1 ≠ "" ∧
    ((parse_filename_only stem).2.1 = "" →
      (parse_filename_only stem).1 = "Manual Sort Needed") := by
  simp only [parse_filename_only]
  split
  · split_ifs
    · refine ⟨clean_name_ne_empty _, clean_name_ne_empty _, ?_⟩
      dsimp only
      intro h
      exact absurd h (by decide)
    · refine ⟨?_, clean_name_ne_empty _, fun _ => rfl⟩
      dsimp only
      decide
  · refine ⟨?_, clean_name_ne_empty _, fun _ => rfl⟩
    dsimp only
    decide

/-- C6 helper: the path tier keeps the invariant. -/
theorem pfp_invariant (cfgSkip : List String) (parts : List String) :
    (parse_from_path cfgSkip parts).1 ≠ "" ∧ (parse_from_path cfgSkip parts).2.2.1 ≠ "" ∧
    ((parse_from_path cfgSkip parts).2.1 = "" →
      (parse_from_path cfgSkip parts).1 = "Manual Sort Needed") := by
  unfold parse_from_path
  split
  · exact pfo_invariant _
  · split
    · exact pfo_invariant _
    · exact ⟨clean_name_ne_empty _, clean_name_ne_empty _,
        fun h => absurd h (clean_name_ne_empty _)⟩

/-- C6 amended: for every file and raw-tag input the resolver returns a
non-empty artist and track, and the album is empty only when the artist is
the sentinel `"Manual Sort Needed"`; the converse direction of the claimed
equivalence fails (see the counterexample). -/
theorem claim_C6_resolver_invariant (cfgSkip : List String) (tags : RawTags)
    (parts : List String) :
    (resolveTrack cfgSkip tags parts).1 ≠ "" ∧
    (resolveTrack cfgSkip tags parts).2.2.1 ≠ "" ∧
    ((resolveTrack cfgSkip tags parts).2.1 = "" →
      (resolveTrack cfgSkip tags parts).1 = "Manual Sort Needed") := by
  unfold resolveTrack
  split_ifs with h
  · refine ⟨clean_name_ne_empty _, ?_, ?_⟩
    · dsimp only
      split
      · split_ifs
        · exact clean_name_ne_empty _
        · exact clean_name_ne_empty _
      · exact clean_name_ne_empty _
    · dsimp only
      intro hal
      exfalso
      revert hal
      split
      · split_ifs
        · exact clean_name_ne_empty _
        · decide
      · decide
  · exact pfp_invariant _ _

/-- C6 counterexample: with raw tag artist `"Manual Sort Needed"` the
resolver returns the sentinel artist with album `"Singles"`, so
`artist = sentinel` does not imply `album = ""`; the claimed equivalence
is false. -/
theorem claim_C6_counterexample :
    ¬ (((resolveTrack [] ⟨some "Manual Sort Needed", none, none, none, none, none⟩
          ["x.mp3"]).1 = "Manual Sort Needed") ↔
       ((resolveTrack [] ⟨some "Manual Sort Needed", none, none, none, none, none⟩
          ["x.mp3"]).2.1 = "")) := by
  decide

/-! ## Association-list lemmas for the group maps -/

theorem lookupA_addToGroup_self {α : Type} (k : String) (x : α)
    (gs : List (String × List α)) :
    lookupA k (addToGroup k x gs) = some ((lookupA k gs).getD [] ++ [x]) := by
  induction gs with
  | nil => simp [addToGroup, lookupA]
  | cons g rest ih =>
    obtain ⟨k2, xs⟩ := g
    by_cases h : k2 = k
    · subst h
      simp [addToGroup, lookupA]
    · simp [addToGroup, lookupA, h, ih]

theorem lookupA_addToGroup_other {α : Type} (k k2 : String) (x : α) (h : k2 ≠ k)
    (gs : List (String × List α)) :
    lookupA k2 (addToGroup k x gs) = lookupA k2 gs := by
  induction gs with
  | nil => simp [addToGroup, lookupA, Ne.symm h]
  | cons g rest ih =>
    obtain ⟨k3, xs⟩ := g
    by_cases h3 : k3 = k
    · subst h3
      simp [addToGroup, lookupA, Ne.symm h]
    · by_cases h4 : k3 = k2
      · subst h4
        simp [addToGroup, lookupA, h3]
      · simp [addToGroup, lookupA, h3, h4, ih]

theorem nearDupFoundCount_eq_filter (gs : List (String × List String)) :
    nearDupFoundCount gs =
      ((gs.filter (fun g => decide (1 < g.2.length))).map (fun g => g.2.length - 1)).sum := by
  induction gs with
  | nil => rfl
  | cons g rest ih =>
    simp only [nearDupFoundCount, List.map_cons, List.sum_cons, List.filter_cons] at ih ⊢
    by_cases h : 1 < g.2.length
    · simp [h, ih]
    · simp [h, ih]

/-- C7 amended: near-duplicate groups are keyed by the lowercased raw tag
artist and title joined by an underscore (not by the resolved pair), a
file's path is appended to its key's ordered list when the feature is on
and both tags are truthy, other keys are untouched, and the report step
adds `count - 1` to `near_duplicates_found` for exactly the groups with
more than one member. -/
theorem claim_C7_near_dup_grouping (findND : Bool) (tags : RawTags) (path : String)
    (gs : List (String × List String)) (a t : String)
    (hnd : findND = true) (ha : tags.artist = some a) (ha2 : a ≠ "")
    (ht : tags.title = some t) (ht2 : t ≠ "") :
    lookupA (nearDupKey a t) (check_near_duplicates findND tags path gs)
        = some ((lookupA (nearDupKey a t) gs).getD [] ++ [path]) ∧
    (∀ k, k ≠ nearDupKey a t →
        lookupA k (check_near_duplicates findND tags path gs) = lookupA k gs) ∧
    reportNearDupCount findND gs =
      ((gs.filter (fun g => decide (1 < g.2.length))).map (fun g => g.2.length - 1)).sum := by
  have hc : check_near_duplicates findND tags path gs = addToGroup (nearDupKey a t) path gs := by
    simp [check_near_duplicates, hnd, ha, ht, ha2, ht2]
  refine ⟨?_, ?_, ?_⟩
  · rw [hc]
    exact lookupA_addToGroup_self _ _ _
  · intro k hk
    rw [hc]
    exact lookupA_addToGroup_other _ _ _ hk _
  · rw [hnd]
    simp [reportNearDupCount, nearDupFoundCount_eq_filter]

/-- C7 witness: a file with raw tags artist `"A/B"`, title `"T"` at path
`"p"` is appended under the key `"a/b_t"`. -/
theorem claim_C7_near_dup_grouping_witness :
    lookupA "a/b_t"
        (check_near_duplicates true ⟨some "A/B", none, some "T", none, none, none⟩ "p" [])
      = some ["p"] := by
  have h := (claim_C7_near_dup_grouping true
      ⟨some "A/B", none, some "T", none, none, none⟩ "p" [] "A/B" "T"
      rfl rfl (by decide) rfl (by decide)).1
  have h2 : nearDupKey "A/B" "T" = "a/b_t" := by decide
  rw [h2] at h
  simpa using h

/-- C7 counterexample: the group key is built from the raw tags, not from
the resolved (artist, title): tags artist `"A/B"`, title `"T"` are grouped
under `"a/b_t"`, while the resolved pair (`"AB"`, `"T"`) would give
`"ab_t"`. -/
theorem claim_C7_counterexample :
    check_near_duplicates true ⟨some "A/B", none, some "T", none, none, none⟩ "p" []
        = [("a/b_t", ["p"])] ∧
    resolvedKey [] ⟨some "A/B", none, some "T", none, none, none⟩ ["x.mp3"] = "ab_t" ∧
    ("a/b_t" : String) ≠ "ab_t" := by
  refine ⟨by decide, by decide, by decide⟩

/-- C8 amended: configured skip entries are substring exclusions during
file enumeration (a file is dropped when any entry occurs in its path
string), but during path-tier resolution a component is excluded only by
exact membership in the skip set (or a `"Part"` name start), not by
substring. -/
theorem claim_C8_skip_folders (cfgSkip : List String) (candidates : List FileRec)
    (f : FileRec) (parts : List String) (i : Nat) (d : String) :
    (f ∈ get_all_music_files cfgSkip candidates ↔
      f ∈ candidates ∧ (∀ sk ∈ cfgSkip, isSubstr sk f.path = false) ∧
        f.isFile = true ∧ pyLower (pathSuffix (fileName f.parts)) ∈ musicExtensions) ∧
    (d ∈ pathTierDirs cfgSkip parts i ↔
      d ∈ (parts.drop (i + 1)).dropLast ∧ d ∉ pathSkipSet cfgSkip ∧
        pyStartsWith d "Part" = false) := by
  constructor
  · rw [get_all_music_files, List.mem_filter]
    simp only [Bool.and_eq_true, Bool.not_eq_true', List.any_eq_false,
      Bool.not_eq_true, and_assoc]
    constructor
    · rintro ⟨h1, h2, h3, h4⟩
      exact ⟨h1, h2, h3, List.elem_iff.mp h4⟩
    · rintro ⟨h1, h2, h3, h4⟩
      exact ⟨h1, h2, h3, List.elem_iff.mpr h4⟩
  · rw [pathTierDirs, List.mem_filter]
    simp only [keepDirComponent, Bool.and_eq_true, Bool.not_eq_true']
    constructor
    · rintro ⟨h1, h2, h3⟩
      refine ⟨h1, ?_, h3⟩
      intro hmem
      have h2e : List.elem d (pathSkipSet cfgSkip) = false := h2
      have hme := List.elem_iff.mpr hmem
      rw [h2e] at hme
      exact Bool.false_ne_true hme
    · rintro ⟨h1, h2, h3⟩
      refine ⟨h1, ?_, h3⟩
      rw [Bool.eq_false_iff]
      intro hc
      have hce : List.elem d (pathSkipSet cfgSkip) = true := hc
      exact h2 (List.elem_iff.mp hce)

/-- C8 counterexample: with configured skip entry `"ash"`, the path-tier
component `"ash-tree"` contains the entry as a substring yet is not
excluded: it becomes the artist, contradicting the claimed substring
exclusion in path-tier resolution. -/
theorem claim_C8_counterexample :
    isSubstr "ash" "ash-tree" = true ∧
    resolveTrack ["ash"] ⟨none, none, none, none, none, none⟩ ["Music", "ash-tree", "x.mp3"]
        = ("ash-tree", "Singles", "x", none, none) := by
  refine ⟨by decide, by decide⟩

/-! ## Lemmas about the sanitizer pipeline (for the idempotence claim) -/

theorem dropWhile_head_false (q : Char → Bool) (l : List Char) :
    headSatisfies q (l.dropWhile q) = false := by
  induction l with
  | nil => rfl
  | cons a t ih =>
    by_cases h : q a
    · rw [List.dropWhile_cons, if_pos h]
      exact ih
    · rw [List.dropWhile_cons, if_neg h]
      simpa [headSatisfies] using h

theorem rstripBy_pre (q : Char → Bool) (l : List Char) : rstripBy q l <+: l := by
  refine ⟨(l.reverse.takeWhile q).reverse, ?_⟩
  unfold rstripBy
  calc (l.reverse.dropWhile q).reverse ++ (l.reverse.takeWhile q).reverse
      = (l.reverse.takeWhile q ++ l.reverse.dropWhile q).reverse :=
        (List.reverse_append _ _).symm
    _ = l.reverse.reverse := by rw [List.takeWhile_append_dropWhile]
    _ = l := List.reverse_reverse l

theorem headSat_of_pre (q : Char → Bool) (l1 l2 : List Char) (h : l1 <+: l2)
    (hne : l1 ≠ []) : headSatisfies q l2 = headSatisfies q l1 := by
  obtain ⟨t, rfl⟩ := h
  cases l1 with
  | nil => exact absurd rfl hne
  | cons a t1 => rfl

theorem stripBy_head_false (q : Char → Bool) (l : List Char) (h : stripBy q l ≠ []) :
    headSatisfies q (stripBy q l) = false := by
  have h1 : headSatisfies q (lstripBy q l) = false := dropWhile_head_false q l
  have h2 := headSat_of_pre q (stripBy q l) (lstripBy q l)
    (rstripBy_pre q (lstripBy q l)) h
  rw [← h2]
  exact h1

theorem stripBy_last_false (q : Char → Bool) (l : List Char) :
    headSatisfies q (stripBy q l).reverse = false := by
  show headSatisfies q ((lstripBy q l).reverse.dropWhile q).reverse.reverse = false
  rw [List.reverse_reverse]
  exact dropWhile_head_false q _

theorem stripBy_eq_self (q : Char → Bool) (l : List Char)
    (hh : headSatisfies q l = false) (hl : headSatisfies q l.reverse = false) :
    stripBy q l = l := by
  have e1 : lstripBy q l = l := by
    cases l with
    | nil => rfl
    | cons a t =>
      have ha : q a = false := hh
      unfold lstripBy
      rw [List.dropWhile_cons, if_neg (by simp [ha])]
  unfold stripBy
  rw [e1]
  unfold rstripBy
  cases hr : l.reverse with
  | nil =>
    simpa using (List.reverse_eq_nil_iff.mp hr).symm
  | cons a t =>
    have ha : q a = false := by
      rw [hr] at hl
      exact hl
    rw [List.dropWhile_cons, if_neg (by simp [ha]), ← hr, List.reverse_reverse]

theorem mem_stripBy (q : Char → Bool) (l : List Char) (x : Char)
    (h : x ∈ stripBy q l) : x ∈ l := by
  unfold stripBy rstripBy lstripBy at h
  rw [List.mem_reverse] at h
  have h2 := (List.dropWhile_sublist _).subset h
  rw [List.mem_reverse] at h2
  exact (List.dropWhile_sublist _).subset h2

theorem mem_collapseWs (l : List Char) (x : Char) (hx : x ∈ collapseWs l) :
    x ∈ l ∨ x = ' ' := by
  induction l with
  | nil => simp [collapseWs] at hx
  | cons a t ih =>
    cases t with
    | nil =>
      by_cases h : isPySpace a
      · simp [collapseWs, h] at hx
        exact Or.inr hx
      · simp [collapseWs, h] at hx
        exact Or.inl (by simp [hx])
    | cons b t2 =>
      by_cases ha : isPySpace a
      · by_cases hb : isPySpace b
        · rw [show collapseWs (a :: b :: t2) = collapseWs (b :: t2) by
            simp [collapseWs, ha, hb]] at hx
          rcases ih hx with h1 | h2
          · exact Or.inl (List.mem_cons_of_mem a h1)
          · exact Or.inr h2
        · rw [show collapseWs (a :: b :: t2) = ' ' :: collapseWs (b :: t2) by
            simp [collapseWs, ha, hb]] at hx
          rcases List.mem_cons.mp hx with h1 | h2
          · exact Or.inr h1
          · rcases ih h2 with h3 | h4
            · exact Or.inl (List.mem_cons_of_mem a h3)
            · exact Or.inr h4
      · rw [show collapseWs (a :: b :: t2) = a :: collapseWs (b :: t2) by
          simp [collapseWs, ha]] at hx
        rcases List.mem_cons.mp hx with h1 | h2
        · exact Or.inl (by simp [h1])
        · rcases ih h2 with h3 | h4
          · exact Or.inl (List.mem_cons_of_mem a h3)
          · exact Or.inr h4

theorem removeIllegal_eq_self (l : List Char)
    (h : ∀ x ∈ l, isIllegalChar x = false) : removeIllegal l = l := by
  unfold removeIllegal
  apply List.filter_eq_self.mpr
  intro a ha
  simp [h a ha]

theorem legal_cleanCore (l : List Char) :
    ∀ x ∈ cleanCoreL l, isIllegalChar x = false := by
  intro x hx
  unfold cleanCoreL at hx
  have h1 := mem_stripBy _ _ _ hx
  have h2 := mem_stripBy _ _ _ h1
  rcases mem_collapseWs _ _ h2 with h3 | h3
  · have h4 := List.of_mem_filter h3
    simpa using h4
  · subst h3
    decide

theorem normWsB_cons (a : Char) (l : List Char) :
    normWsB (a :: l) =
      ((!isPySpace a || (a == ' ' && !headSatisfies isPySpace l)) && normWsB l) := by
  cases l with
  | nil => simp [normWsB, headSatisfies]
  | cons b t => rfl

theorem normWsB_tail (a : Char) (l : List Char) (h : normWsB (a :: l) = true) :
    normWsB l = true := by
  rw [normWsB_cons, Bool.and_eq_true] at h
  exact h.2

theorem collapseWs_head (b : Char) (t : List Char) :
    ∃ t2, collapseWs (b :: t) = (if isPySpace b then ' ' else b) :: t2 := by
  induction t generalizing b with
  | nil =>
    by_cases h : isPySpace b
    · exact ⟨[], by simp [collapseWs, h]⟩
    · exact ⟨[], by simp [collapseWs, h]⟩
  | cons c t2 ih =>
    by_cases hb : isPySpace b
    · by_cases hc : isPySpace c
      · obtain ⟨t3, ht3⟩ := ih c
        rw [if_pos hc] at ht3
        exact ⟨t3, by simp [collapseWs, hb, hc, ht3]⟩
      · exact ⟨collapseWs (c :: t2), by simp [collapseWs, hb, hc]⟩
    · exact ⟨collapseWs (c :: t2), by simp [collapseWs, hb]⟩

theorem normWs_collapseWs (l : List Char) : normWsB (collapseWs l) = true := by
  induction l with
  | nil => rfl
  | cons a t ih =>
    cases t with
    | nil =>
      by_cases h : isPySpace a <;> simp [collapseWs, normWsB, h]
    | cons b t2 =>
      by_cases ha : isPySpace a
      · by_cases hb : isPySpace b
        · rw [show collapseWs (a :: b :: t2) = collapseWs (b :: t2) by
            simp [collapseWs, ha, hb]]
          exact ih
        · rw [show collapseWs (a :: b :: t2) = ' ' :: collapseWs (b :: t2) by
            simp [collapseWs, ha, hb]]
          obtain ⟨t3, ht3⟩ := collapseWs_head b t2
          rw [if_neg hb] at ht3
          rw [ht3, normWsB_cons]
          rw [ht3] at ih
          simp [headSatisfies, hb, ih]
      · rw [show collapseWs (a :: b :: t2) = a :: collapseWs (b :: t2) by
          simp [collapseWs, ha]]
        rw [normWsB_cons]
        simp [ha, ih]

theorem collapseWs_eq_self (l : List Char) (h : normWsB l = true) :
    collapseWs l = l := by
  induction l with
  | nil => rfl
  | cons a t ih =>
    cases t with
    | nil =>
      by_cases ha : isPySpace a
      · have h2 : a = ' ' := by
          have h3 := h
          simp [normWsB, ha] at h3
          exact h3
        simp [collapseWs, ha, h2]
      · simp [collapseWs, ha]
    | cons b t2 =>
      rw [normWsB_cons, Bool.and_eq_true] at h
      obtain ⟨hcond, hrest⟩ := h
      by_cases ha : isPySpace a
      · have h2 : a = ' ' ∧ isPySpace b = false := by
          simp [ha, headSatisfies] at hcond
          exact hcond
        obtain ⟨haa, hbb⟩ := h2
        rw [show collapseWs (a :: b :: t2) = ' ' :: collapseWs (b :: t2) by
          simp [collapseWs, ha, hbb]]
        rw [ih hrest, haa]
      · rw [show collapseWs (a :: b :: t2) = a :: collapseWs (b :: t2) by
          simp [collapseWs, ha]]
        rw [ih hrest]

theorem normWsB_of_pre : ∀ (l1 l2 : List Char), l1 <+: l2 → normWsB l2 = true →
    normWsB l1 = true := by
  intro l1
  induction l1 with
  | nil => intro l2 _ _; rfl
  | cons a t ih =>
    intro l2 hpre h2
    obtain ⟨t2, rfl⟩ := hpre
    rw [List.cons_append, normWsB_cons, Bool.and_eq_true] at h2
    obtain ⟨hcond, hrest⟩ := h2
    rw [normWsB_cons, Bool.and_eq_true]
    refine ⟨?_, ih (t ++ t2) ⟨t2, rfl⟩ hrest⟩
    cases t with
    | nil =>
      by_cases hsa : isPySpace a
      · simp only [List.nil_append] at hcond
        simp [hsa, headSatisfies] at hcond ⊢
        exact hcond.1
      · simp [hsa]
    | cons c t3 =>
      simpa [headSatisfies] using hcond

theorem normWsB_dropWhile (q : Char → Bool) (l : List Char)
    (h : normWsB l = true) : normWsB (l.dropWhile q) = true := by
  induction l with
  | nil => rfl
  | cons a t ih =>
    by_cases hq : q a
    · rw [List.dropWhile_cons, if_pos hq]
      exact ih (normWsB_tail _ _ h)
    · rw [List.dropWhile_cons, if_neg hq]
      exact h

theorem normWs_cleanCore (l : List Char) : normWsB (cleanCoreL l) = true := by
  have h0 : normWsB (collapseWs (removeIllegal l)) = true := normWs_collapseWs _
  have h1 : normWsB (lstripBy isPySpace (collapseWs (removeIllegal l))) = true :=
    normWsB_dropWhile _ _ h0
  have h2 : normWsB (stripBy isPySpace (collapseWs (removeIllegal l))) = true :=
    normWsB_of_pre _ _ (rstripBy_pre _ _) h1
  have h3 : normWsB (lstripBy isDotChar
      (stripBy isPySpace (collapseWs (removeIllegal l)))) = true :=
    normWsB_dropWhile _ _ h2
  exact normWsB_of_pre _ _ (rstripBy_pre _ _) h3

theorem cleanCoreL_fixed (c : List Char)
    (hLegal : ∀ x ∈ c, isIllegalChar x = false)
    (hNorm : normWsB c = true)
    (hHeadWs : headSatisfies isPySpace c = false)
    (hLastWs : headSatisfies isPySpace c.reverse = false)
    (hHeadDot : headSatisfies isDotChar c = false)
    (hLastDot : headSatisfies isDotChar c.reverse = false) :
    cleanCoreL c = c := by
  unfold cleanCoreL
  rw [removeIllegal_eq_self c hLegal, collapseWs_eq_self c hNorm,
    stripBy_eq_self _ _ hHeadWs hLastWs]
  exact stripBy_eq_self _ _ hHeadDot hLastDot

theorem cleanNameL_cases (l : List Char) :
    cleanNameL l = unknownL ∨ (cleanNameL l = cleanCoreL l ∧ cleanCoreL l ≠ []) := by
  unfold cleanNameL
  split_ifs with h1 h2
  · exact Or.inl rfl
  · exact Or.inl rfl
  · exact Or.inr ⟨rfl, h2⟩

/-- C10 counterexample: the sanitizer is not idempotent:
`clean_name "a ." = "a "` (the dot strip exposes a trailing space) while
`clean_name "a " = "a"`. -/
theorem claim_C10_counterexample :
    clean_name (clean_name "a .") ≠ clean_name "a ." := by
  decide

/-- C10 amended: the sanitizer is idempotent on every input whose
sanitized form has no leading or trailing whitespace; in general
idempotence fails because stripping edge dots can expose whitespace that
a second pass would then remove (see the counterexample). -/
theorem claim_C10_sanitizer_idem (s : String)
    (h : hasEdgeWs (clean_name s).data = false) :
    clean_name (clean_name s) = clean_name s := by
  have hsplit : headSatisfies isPySpace (cleanNameL s.data) = false ∧
      headSatisfies isPySpace (cleanNameL s.data).reverse = false := by
    have h2 : hasEdgeWs (cleanNameL s.data) = false := h
    unfold hasEdgeWs at h2
    exact Bool.or_eq_false_iff.mp h2
  suffices hs : cleanNameL (cleanNameL s.data) = cleanNameL s.data by
    show (⟨cleanNameL (clean_name s).data⟩ : String) = ⟨cleanNameL s.data⟩
    rw [show (clean_name s).data = cleanNameL s.data from rfl, hs]
  rcases cleanNameL_cases s.data with hc | ⟨hc, hcne⟩
  · rw [hc]
    decide
  · rw [hc] at hsplit ⊢
    have hfix : cleanCoreL (cleanCoreL s.data) = cleanCoreL s.data :=
      cleanCoreL_fixed _ (legal_cleanCore _) (normWs_cleanCore _)
        hsplit.1 hsplit.2
        (stripBy_head_false isDotChar
          (stripBy isPySpace (collapseWs (removeIllegal s.data))) hcne)
        (stripBy_last_false isDotChar
          (stripBy isPySpace (collapseWs (removeIllegal s.data))))
    unfold cleanNameL
    rw [if_neg hcne, hfix, if_neg hcne]

/-- C10 witness: `"Hello World."` sanitizes to `"Hello World"` with no
edge whitespace, and a second sanitization is the identity there. -/
theorem claim_C10_sanitizer_idem_witness :
    hasEdgeWs (clean_name "Hello World.").data = false ∧
    clean_name (clean_name "Hello World.") = clean_name "Hello World." :=
  ⟨by decide, claim_C10_sanitizer_idem "Hello World." (by decide)⟩

/-! ## Lemmas about the scan loop of `organize` -/

theorem lookupA_append_some {α : Type} (k : String) (l1 l2 : List (String × α))
    (v : α) (h : lookupA k l1 = some v) : lookupA k (l1 ++ l2) = some v := by
  induction l1 with
  | nil => simp [lookupA] at h
  | cons g rest ih =>
    obtain ⟨k2, w⟩ := g
    by_cases h2 : k2 = k
    · simp [lookupA, h2] at h ⊢
      exact h
    · simp [lookupA, h2] at h ⊢
      exact ih h

theorem lookupA_append_none {α : Type} (k : String) (l1 l2 : List (String × α))
    (h : lookupA k l1 = none) : lookupA k (l1 ++ l2) = lookupA k l2 := by
  induction l1 with
  | nil => rfl
  | cons g rest ih =>
    obtain ⟨k2, w⟩ := g
    by_cases h2 : k2 = k
    · simp [lookupA, h2] at h
    · simp [lookupA, h2] at h ⊢
      exact ih h

theorem lookupA_isSome_iff {α : Type} (k : String) (l : List (String × α)) :
    (lookupA k l).isSome = (l.map Prod.fst).contains k := by
  induction l with
  | nil => rfl
  | cons g rest ih =>
    obtain ⟨k2, v⟩ := g
    by_cases h : k2 = k
    · simp [lookupA, h, List.contains_cons]
    · simp [lookupA, h, List.contains_cons, Ne.symm h, ih]

theorem scanStep_none (H : List Nat → String) (findND : Bool) (cfgSkip : List String)
    (s : ScanState) (f : FileRec) (hf : fileHash H f = none) :
    scanStep H findND cfgSkip s f = { s with totalFiles := s.totalFiles + 1 } := by
  unfold scanStep
  rw [hf]

theorem scanStep_dup (H : List Nat → String) (findND : Bool) (cfgSkip : List String)
    (s : ScanState) (f : FileRec) (h : String) (hf : fileHash H f = some h)
    (hd : (lookupA h s.duplicates).isSome = true) :
    scanStep H findND cfgSkip s f =
      { s with totalFiles := s.totalFiles + 1,
               duplicatesRemoved := s.duplicatesRemoved + 1 } := by
  unfold scanStep
  rw [hf]
  dsimp only
  rw [if_pos hd]

theorem scanStep_new (H : List Nat → String) (findND : Bool) (cfgSkip : List String)
    (s : ScanState) (f : FileRec) (h : String) (hf : fileHash H f = some h)
    (hd : lookupA h s.duplicates = none) :
    scanStep H findND cfgSkip s f =
      { s with totalFiles := s.totalFiles + 1,
               duplicates := s.duplicates ++ [(h, f.path)],
               nearDups := check_near_duplicates findND f.tags f.path s.nearDups,
               plan := addToGroup
                 (planKey (resolveTrack cfgSkip f.tags f.parts).1
                   (resolveTrack cfgSkip f.tags f.parts).2.1)
                 (mkPlanEntry f (resolveTrack cfgSkip f.tags f.parts)) s.plan,
               manualSort := if (resolveTrack cfgSkip f.tags f.parts).1 = "Manual Sort Needed"
                             then s.manualSort + 1 else s.manualSort } := by
  unfold scanStep
  rw [hf]
  dsimp only
  rw [hd]
  rw [if_neg (by simp)]

theorem scanStep_lookup_mono (H : List Nat → String) (findND : Bool)
    (cfgSkip : List String) (s : ScanState) (f : FileRec) (k : String) (v : String)
    (h : lookupA k s.duplicates = some v) :
    lookupA k (scanStep H findND cfgSkip s f).duplicates = some v := by
  cases hf : fileHash H f with
  | none => rw [scanStep_none H findND cfgSkip s f hf]; exact h
  | some h2 =>
    by_cases hd : (lookupA h2 s.duplicates).isSome = true
    · rw [scanStep_dup H findND cfgSkip s f h2 hf hd]; exact h
    · rw [scanStep_new H findND cfgSkip s f h2 hf
        (Option.not_isSome_iff_eq_none.mp hd)]
      exact lookupA_append_some _ _ _ _ h

theorem scanFold_lookup_mono (H : List Nat → String) (findND : Bool)
    (cfgSkip : List String) (fs : List FileRec) :
    ∀ (s : ScanState) (k v : String), lookupA k s.duplicates = some v →
      lookupA k ((fs.foldl (scanStep H findND cfgSkip) s).duplicates) = some v := by
  induction fs with
  | nil => intro s k v h; exact h
  | cons f rest ih =>
    intro s k v h
    rw [List.foldl_cons]
    exact ih _ _ _ (scanStep_lookup_mono H findND cfgSkip s f k v h)

theorem scanStep_records (H : List Nat → String) (findND : Bool)
    (cfgSkip : List String) (s : ScanState) (f : FileRec) (h : String)
    (hf : fileHash H f = some h) :
    ∃ v, lookupA h (scanStep H findND cfgSkip s f).duplicates = some v := by
  by_cases hd : (lookupA h s.duplicates).isSome = true
  · obtain ⟨v, hv⟩ := Option.isSome_iff_exists.mp hd
    exact ⟨v, by rw [scanStep_dup H findND cfgSkip s f h hf hd]; exact hv⟩
  · have hn := Option.not_isSome_iff_eq_none.mp hd
    refine ⟨f.path, ?_⟩
    rw [scanStep_new H findND cfgSkip s f h hf hn]
    show lookupA h (s.duplicates ++ [(h, f.path)]) = some f.path
    rw [lookupA_append_none _ _ _ hn]
    simp [lookupA]

theorem scanFold_mem_records (H : List Nat → String) (findND : Bool)
    (cfgSkip : List String) (fs : List FileRec) :
    ∀ (s : ScanState) (f : FileRec) (h : String), f ∈ fs → fileHash H f = some h →
      ∃ v, lookupA h ((fs.foldl (scanStep H findND cfgSkip) s).duplicates) = some v := by
  induction fs with
  | nil => intro s f h hmem; exact absurd hmem (List.not_mem_nil f)
  | cons g rest ih =>
    intro s f h hmem hf
    rcases List.mem_cons.mp hmem with h1 | h1
    · subst h1
      obtain ⟨v, hv⟩ := scanStep_records H findND cfgSkip s f h hf
      rw [List.foldl_cons]
      exact ⟨v, scanFold_lookup_mono H findND cfgSkip rest _ _ _ hv⟩
    · rw [List.foldl_cons]
      exact ih _ f h h1 hf

theorem scanFold_lookup_eq (H : List Nat → String) (findND : Bool)
    (cfgSkip : List String) (fs : List FileRec) :
    ∀ (s : ScanState) (k : String), lookupA k s.duplicates = none →
      lookupA k ((fs.foldl (scanStep H findND cfgSkip) s).duplicates) =
        (firstWithHash H k fs).map FileRec.path := by
  induction fs with
  | nil => intro s k h; simpa [firstWithHash] using h
  | cons f rest ih =>
    intro s k h
    rw [List.foldl_cons]
    cases hf : fileHash H f with
    | none =>
      rw [scanStep_none H findND cfgSkip s f hf]
      rw [ih { s with totalFiles := s.totalFiles + 1 } k h]
      have hp : (fileHash H f == some k) = false := by
        rw [hf]
        rfl
      simp [firstWithHash, List.find?_cons, hp]
    | some h2 =>
      by_cases he : h2 = k
      · subst he
        have hd : lookupA h2 s.duplicates = none := h
        rw [scanStep_new H findND cfgSkip s f h2 hf hd]
        have hl : lookupA h2 ((s.duplicates ++ [(h2, f.path)])) = some f.path := by
          rw [lookupA_append_none _ _ _ hd]
          simp [lookupA]
        have := scanFold_lookup_mono H findND cfgSkip rest
          { s with totalFiles := s.totalFiles + 1,
                   duplicates := s.duplicates ++ [(h2, f.path)],
                   nearDups := check_near_duplicates findND f.tags f.path s.nearDups,
                   plan := addToGroup
                     (planKey (resolveTrack cfgSkip f.tags f.parts).1
                       (resolveTrack cfgSkip f.tags f.parts).2.1)
                     (mkPlanEntry f (resolveTrack cfgSkip f.tags f.parts)) s.plan,
                   manualSort := if (resolveTrack cfgSkip f.tags f.parts).1
                       = "Manual Sort Needed"
                     then s.manualSort + 1 else s.manualSort } h2 f.path hl
        rw [this]
        have hp : (fileHash H f == some h2) = true := by
          rw [hf]
          simp
        simp [firstWithHash, List.find?_cons, hp]
      · have hp : (fileHash H f == some k) = false := by
          rw [hf]
          simp [he]
        by_cases hd : (lookupA h2 s.duplicates).isSome = true
        · rw [scanStep_dup H findND cfgSkip s f h2 hf hd]
          rw [ih { s with totalFiles := s.totalFiles + 1,
                          duplicatesRemoved := s.duplicatesRemoved + 1 } k h]
          simp [firstWithHash, List.find?_cons, hp]
        · rw [scanStep_new H findND cfgSkip s f h2 hf
            (Option.not_isSome_iff_eq_none.mp hd)]
          rw [ih { s with totalFiles := s.totalFiles + 1,
                          duplicates := s.duplicates ++ [(h2, f.path)],
                          nearDups := check_near_duplicates findND f.tags f.path s.nearDups,
                          plan := addToGroup
                            (planKey (resolveTrack cfgSkip f.tags f.parts).1
                              (resolveTrack cfgSkip f.tags f.parts).2.1)
                            (mkPlanEntry f (resolveTrack cfgSkip f.tags f.parts)) s.plan,
                          manualSort := if (resolveTrack cfgSkip f.tags f.parts).1
                              = "Manual Sort Needed"
                            then s.manualSort + 1 else s.manualSort } k (by
            show lookupA k (s.duplicates ++ [(h2, f.path)]) = none
            rw [lookupA_append_none _ _ _ h]
            simp [lookupA, he])]
          simp [firstWithHash, List.find?_cons, hp]

theorem mem_pathsOfPlan_addToGroup (k : String) (e : PlanEntry)
    (pl : List (String × List PlanEntry)) (p : String)
    (h : p ∈ pathsOfPlan (addToGroup k e pl)) :
    p = e.originalPath ∨ p ∈ pathsOfPlan pl := by
  induction pl with
  | nil =>
    rw [show addToGroup k e ([] : List (String × List PlanEntry)) = [(k, [e])] from rfl,
      show pathsOfPlan [(k, [e])] = [e.originalPath] from rfl] at h
    exact Or.inl (by simpa using h)
  | cons g rest ih =>
    obtain ⟨k2, xs⟩ := g
    have hcons : ∀ (ys : List PlanEntry) (l : List (String × List PlanEntry)),
        pathsOfPlan ((k2, ys) :: l) = ys.map PlanEntry.originalPath ++ pathsOfPlan l := by
      intro ys l
      rfl
    by_cases h2 : k2 = k
    · rw [show addToGroup k e ((k2, xs) :: rest) = (k2, xs ++ [e]) :: rest from by
        simp [addToGroup, h2], hcons] at h
      rcases List.mem_append.mp h with h3 | h3
      · rw [List.map_append] at h3
        rcases List.mem_append.mp h3 with h4 | h4
        · refine Or.inr ?_
          rw [hcons]
          exact List.mem_append.mpr (Or.inl h4)
        · exact Or.inl (by simpa using h4)
      · refine Or.inr ?_
        rw [hcons]
        exact List.mem_append.mpr (Or.inr h3)
    · rw [show addToGroup k e ((k2, xs) :: rest) = (k2, xs) :: addToGroup k e rest from by
        simp [addToGroup, h2], hcons] at h
      rcases List.mem_append.mp h with h3 | h3
      · refine Or.inr ?_
        rw [hcons]
        exact List.mem_append.mpr (Or.inl h3)
      · rcases ih h3 with h4 | h4
        · exact Or.inl h4
        · refine Or.inr ?_
          rw [hcons]
          exact List.mem_append.mpr (Or.inr h4)

theorem scanStep_plan_inv (H : List Nat → String) (findND : Bool)
    (cfgSkip : List String) (s : ScanState) (f : FileRec)
    (hinv : ∀ p ∈ planPaths s, ∃ k, lookupA k s.duplicates = some p) :
    ∀ p ∈ planPaths (scanStep H findND cfgSkip s f),
      ∃ k, lookupA k (scanStep H findND cfgSkip s f).duplicates = some p := by
  intro p hp
  cases hf : fileHash H f with
  | none =>
    rw [scanStep_none H findND cfgSkip s f hf] at hp ⊢
    exact hinv p hp
  | some h2 =>
    by_cases hd : (lookupA h2 s.duplicates).isSome = true
    · rw [scanStep_dup H findND cfgSkip s f h2 hf hd] at hp ⊢
      exact hinv p hp
    · have hn := Option.not_isSome_iff_eq_none.mp hd
      rw [scanStep_new H findND cfgSkip s f h2 hf hn] at hp ⊢
      rcases mem_pathsOfPlan_addToGroup _ _ _ _ hp with h3 | h3
      · refine ⟨h2, ?_⟩
        show lookupA h2 (s.duplicates ++ [(h2, f.path)]) = some p
        rw [lookupA_append_none _ _ _ hn]
        simp [lookupA, h3, mkPlanEntry]
      · obtain ⟨k, hk⟩ := hinv p h3
        exact ⟨k, lookupA_append_some _ _ _ _ hk⟩

theorem scanFold_plan_inv (H : List Nat → String) (findND : Bool)
    (cfgSkip : List String) (fs : List FileRec) :
    ∀ (s : ScanState), (∀ p ∈ planPaths s, ∃ k, lookupA k s.duplicates = some p) →
      ∀ p ∈ planPaths (fs.foldl (scanStep H findND cfgSkip) s),
        ∃ k, lookupA k ((fs.foldl (scanStep H findND cfgSkip) s).duplicates) = some p := by
  induction fs with
  | nil => intro s hinv; exact hinv
  | cons f rest ih =>
    intro s hinv
    rw [List.foldl_cons]
    exact ih _ (scanStep_plan_inv H findND cfgSkip s f hinv)

theorem find?_first {α : Type} (p : α → Bool) :
    ∀ (l : List α) (i : Nat) (hi : i < l.length), p (l.get ⟨i, hi⟩) = true →
      ∃ k, ∃ hk : k < l.length, k ≤ i ∧ l.find? p = some (l.get ⟨k, hk⟩) := by
  intro l
  induction l with
  | nil => intro i hi _; exact absurd hi (Nat.not_lt_zero i)
  | cons a t ih =>
    intro i hi hp
    by_cases hpa : p a = true
    · exact ⟨0, by simp, Nat.zero_le i, by rw [List.find?_cons_of_pos _ hpa]; rfl⟩
    · cases i with
      | zero =>
        exact absurd hp hpa
      | succ j =>
        have hj : j < t.length := by simpa using hi
        have hp2 : p (t.get ⟨j, hj⟩) = true := hp
        obtain ⟨k, hk, hki, hfind⟩ := ih j hj hp2
        refine ⟨k + 1, by simpa using hk, by omega, ?_⟩
        rw [List.find?_cons_of_neg _ hpa]
        exact hfind

theorem path_get_inj (files : List FileRec) (hnd : (files.map FileRec.path).Nodup)
    (m k : Nat) (hm : m < files.length) (hk : k < files.length)
    (h : (files.get ⟨m, hm⟩).path = (files.get ⟨k, hk⟩).path) : m = k := by
  have hm2 : m < (files.map FileRec.path).length := by simpa using hm
  have hk2 : k < (files.map FileRec.path).length := by simpa using hk
  have hg : (files.map FileRec.path).get ⟨m, hm2⟩
      = (files.map FileRec.path).get ⟨k, hk2⟩ := by
    simp only [List.get_eq_getElem, List.getElem_map]
    exact h
  have := (hnd.get_inj_iff).mp hg
  exact congrArg Fin.val this

theorem survivorsAux_cons_none (H : List Nat → String) (seen : List String)
    (f : FileRec) (fs : List FileRec) (hf : fileHash H f = none) :
    survivorsAux H seen (f :: fs) = survivorsAux H seen fs := by
  conv_lhs => unfold survivorsAux
  rw [hf]

theorem survivorsAux_cons_seen (H : List Nat → String) (seen : List String)
    (f : FileRec) (fs : List FileRec) (h2 : String) (hf : fileHash H f = some h2)
    (hc : seen.contains h2 = true) :
    survivorsAux H seen (f :: fs) = survivorsAux H seen fs := by
  conv_lhs => unfold survivorsAux
  rw [hf]
  dsimp only
  rw [if_pos hc]

theorem survivorsAux_cons_new (H : List Nat → String) (seen : List String)
    (f : FileRec) (fs : List FileRec) (h2 : String) (hf : fileHash H f = some h2)
    (hc : seen.contains h2 = false) :
    survivorsAux H seen (f :: fs) = f :: survivorsAux H (seen ++ [h2]) fs := by
  conv_lhs => unfold survivorsAux
  rw [hf]
  dsimp only
  rw [if_neg (by rw [hc]; exact Bool.false_ne_true)]

theorem scanFold_nearDups (H : List Nat → String) (findND : Bool)
    (cfgSkip : List String) (fs : List FileRec) :
    ∀ (s : ScanState),
      ((fs.foldl (scanStep H findND cfgSkip) s).nearDups) =
        (survivorsAux H (s.duplicates.map Prod.fst) fs).foldl
          (fun gs f => check_near_duplicates findND f.tags f.path gs) s.nearDups := by
  induction fs with
  | nil => intro s; rfl
  | cons f rest ih =>
    intro s
    rw [List.foldl_cons]
    cases hf : fileHash H f with
    | none =>
      rw [scanStep_none H findND cfgSkip s f hf]
      rw [ih { s with totalFiles := s.totalFiles + 1 }]
      rw [survivorsAux_cons_none H _ f rest hf]
    | some h2 =>
      by_cases hd : (lookupA h2 s.duplicates).isSome = true
      · rw [scanStep_dup H findND cfgSkip s f h2 hf hd]
        rw [ih { s with totalFiles := s.totalFiles + 1,
                        duplicatesRemoved := s.duplicatesRemoved + 1 }]
        have hcont : (s.duplicates.map Prod.fst).contains h2 = true := by
          rw [← lookupA_isSome_iff]
          exact hd
        rw [survivorsAux_cons_seen H _ f rest h2 hf hcont]
      · have hn := Option.not_isSome_iff_eq_none.mp hd
        rw [scanStep_new H findND cfgSkip s f h2 hf hn]
        rw [ih { s with totalFiles := s.totalFiles + 1,
                        duplicates := s.duplicates ++ [(h2, f.path)],
                        nearDups := check_near_duplicates findND f.tags f.path s.nearDups,
                        plan := addToGroup
                          (planKey (resolveTrack cfgSkip f.tags f.parts).1
                            (resolveTrack cfgSkip f.tags f.parts).2.1)
                          (mkPlanEntry f (resolveTrack cfgSkip f.tags f.parts)) s.plan,
                        manualSort := if (resolveTrack cfgSkip f.tags f.parts).1
                            = "Manual Sort Needed"
                          then s.manualSort + 1 else s.manualSort }]
        have hcont : (s.duplicates.map Prod.fst).contains h2 = false := by
          rw [← lookupA_isSome_iff, hn]
          rfl
        rw [survivorsAux_cons_new H _ f rest h2 hf hcont]
        rw [List.foldl_cons]
        dsimp only
        rw [List.map_append]
        rfl

/-- C9: near-duplicate grouping happens exactly for the files that survive
exact-duplicate suppression: the groups accumulated by the scan equal the
fold of `check_near_duplicates` over the dedup survivors alone, so a file
skipped for an already-recorded hash (or an unhashable one) is never
appended to any group. -/
theorem claim_C9_near_dups_survivors (H : List Nat → String) (findND : Bool)
    (cfgSkip : List String) (files : List FileRec) :
    (scanFiles H findND cfgSkip files).nearDups =
      (survivors H files).foldl
        (fun gs f => check_near_duplicates findND f.tags f.path gs) [] := by
  exact scanFold_nearDups H findND cfgSkip files initScan

/-- C5: two byte-identical readable files in one batch hash to the same
digest; after scanning the files before the later one, that digest is
already recorded, and processing the later file only increments
`duplicates_removed` (the duplicate index, the near-duplicate groups and
the placement plan are untouched); the index maps each digest to the
first-enumerated file carrying it, and the later file's path is absent
from the final placement plan. -/
theorem claim_C5_duplicate_suppression (H : List Nat → String) (findND : Bool)
    (cfgSkip : List String) (files : List FileRec) (i j : Nat)
    (hi : i < files.length) (hj : j < files.length) (hij : i < j)
    (hcontent : (files.get ⟨i, hi⟩).content = (files.get ⟨j, hj⟩).content)
    (hri : (files.get ⟨i, hi⟩).readable = true)
    (hrj : (files.get ⟨j, hj⟩).readable = true)
    (hnd : (files.map FileRec.path).Nodup) :
    fileHash H (files.get ⟨i, hi⟩) = some (H (files.get ⟨j, hj⟩).content) ∧
    fileHash H (files.get ⟨j, hj⟩) = some (H (files.get ⟨j, hj⟩).content) ∧
    (lookupA (H (files.get ⟨j, hj⟩).content)
        (scanFiles H findND cfgSkip (files.take j)).duplicates).isSome = true ∧
    scanStep H findND cfgSkip (scanFiles H findND cfgSkip (files.take j))
        (files.get ⟨j, hj⟩)
      = { scanFiles H findND cfgSkip (files.take j) with
          totalFiles := (scanFiles H findND cfgSkip (files.take j)).totalFiles + 1,
          duplicatesRemoved :=
            (scanFiles H findND cfgSkip (files.take j)).duplicatesRemoved + 1 } ∧
    lookupA (H (files.get ⟨j, hj⟩).content)
        (scanFiles H findND cfgSkip files).duplicates
      = (firstWithHash H (H (files.get ⟨j, hj⟩).content) files).map FileRec.path ∧
    (files.get ⟨j, hj⟩).path ∉ planPaths (scanFiles H findND cfgSkip files) := by
  have hfi : fileHash H (files.get ⟨i, hi⟩)
      = some (H (files.get ⟨j, hj⟩).content) := by
    unfold fileHash
    rw [if_pos hri, hcontent]
  have hfj : fileHash H (files.get ⟨j, hj⟩)
      = some (H (files.get ⟨j, hj⟩).content) := by
    unfold fileHash
    rw [if_pos hrj]
  have hitake : i < (files.take j).length := by
    rw [List.length_take]
    omega
  have hmem : files.get ⟨i, hi⟩ ∈ files.take j := by
    have heq : (files.take j).get ⟨i, hitake⟩ = files.get ⟨i, hi⟩ := by
      simp [List.get_eq_getElem]
    exact heq ▸ List.get_mem _ _ _
  obtain ⟨v, hv⟩ := scanFold_mem_records H findND cfgSkip (files.take j) initScan
    (files.get ⟨i, hi⟩) (H (files.get ⟨j, hj⟩).content) hmem hfi
  have hv2 : lookupA (H (files.get ⟨j, hj⟩).content)
      (scanFiles H findND cfgSkip (files.take j)).duplicates = some v := hv
  have hsome : (lookupA (H (files.get ⟨j, hj⟩).content)
      (scanFiles H findND cfgSkip (files.take j)).duplicates).isSome = true := by
    rw [hv2]
    rfl
  refine ⟨hfi, hfj, hsome, ?_, ?_, ?_⟩
  · exact scanStep_dup H findND cfgSkip _ _ _ hfj hsome
  · exact scanFold_lookup_eq H findND cfgSkip files initScan _ rfl
  · intro hpmem
    have hinit : ∀ p ∈ planPaths initScan, ∃ k, lookupA k initScan.duplicates = some p := by
      intro p hp
      simp [planPaths, pathsOfPlan, initScan] at hp
    obtain ⟨k, hk⟩ := scanFold_plan_inv H findND cfgSkip files initScan hinit _ hpmem
    rw [scanFold_lookup_eq H findND cfgSkip files initScan k rfl] at hk
    obtain ⟨b, hb, hbp⟩ := Option.map_eq_some'.mp hk
    have hb2 : files.find? (fun f => fileHash H f == some k) = some b := hb
    have hpb : (fileHash H b == some k) = true := by
      have h5 := List.find?_some hb2
      exact h5
    have hbmem : b ∈ files := List.mem_of_find?_eq_some hb2
    obtain ⟨⟨m, hm⟩, hbm⟩ := List.mem_iff_get.mp hbmem
    have hmj : m = j := path_get_inj files hnd m j hm hj (by rw [hbm, hbp])
    have hbfj : b = files.get ⟨j, hj⟩ := by
      rw [← hbm]
      congr 1
      exact Fin.ext hmj
    have hfjb : fileHash H b = some (H (files.get ⟨j, hj⟩).content) := by
      rw [hbfj]
      exact hfj
    have hkk : k = H (files.get ⟨j, hj⟩).content := by
      rw [hfjb] at hpb
      exact (Option.some.inj (beq_iff_eq.mp hpb)).symm
    have hpi : (fileHash H (files.get ⟨i, hi⟩) == some k) = true := by
      rw [hkk, hfi]
      simp
    obtain ⟨k2, hk2lt, hk2i, hfind⟩ :=
      find?_first (fun f => fileHash H f == some k) files i hi hpi
    rw [hb2] at hfind
    have hbk2 : b = files.get ⟨k2, hk2lt⟩ := Option.some.inj hfind
    have hj2 : j = k2 := path_get_inj files hnd j k2 hj hk2lt (by rw [← hbfj, hbk2])
    omega

/-- C5 witness: two byte-identical readable files at paths `"a.mp3"` and
`"b.mp3"` under a concrete hash function: both hash to the same digest,
the second file's processing only increments the duplicate counter, the
index keeps the first path, and the second path is absent from the plan. -/
theorem claim_C5_duplicate_suppression_witness :
    let H : List Nat → String := fun _ => "h"
    let f1 : FileRec := ⟨["a.mp3"], true, [0], true, ⟨none, none, none, none, none, none⟩⟩
    let f2 : FileRec := ⟨["b.mp3"], true, [0], true, ⟨none, none, none, none, none, none⟩⟩
    fileHash H f1 = some (H f2.content) ∧
    fileHash H f2 = some (H f2.content) ∧
    (lookupA (H f2.content) (scanFiles H true [] ([f1, f2].take 1)).duplicates).isSome
      = true ∧
    scanStep H true [] (scanFiles H true [] ([f1, f2].take 1)) f2
      = { scanFiles H true [] ([f1, f2].take 1) with
          totalFiles := (scanFiles H true [] ([f1, f2].take 1)).totalFiles + 1,
          duplicatesRemoved :=
            (scanFiles H true [] ([f1, f2].take 1)).duplicatesRemoved + 1 } ∧
    lookupA (H f2.content) (scanFiles H true [] [f1, f2]).duplicates
      = (firstWithHash H (H f2.content) [f1, f2]).map FileRec.path ∧
    f2.path ∉ planPaths (scanFiles H true [] [f1, f2]) := by
  intro H f1 f2
  exact claim_C5_duplicate_suppression H true [] [f1, f2] 0 1 (by decide) (by decide)
    (by decide) rfl rfl rfl (by decide)

end MusicOrganizer
